import Mathlib

/-!
Verification of `backtest_optimizer/main.py` (combinatorial purged
cross-validation parameter optimizer).  Python structures are shallowly
embedded: numpy integer arrays become `List Nat` / `List (List Nat)`,
boolean masks become `List Bool`, Python floats (which may be NaN) become
an explicit `PyFloat` type over exact rationals, dictionaries become
association lists, and fallible code returns `Except`/`Option`.
-/

namespace BacktestOpt

/-! ## itertools.combinations

`itt.combinations(np.arange(n), k)` (main.py line 276) enumerates the
k-element subsets of `[0, .., n-1]` in lexicographic order.  `combos k l`
is the standard recursive presentation of that enumeration for an
arbitrary candidate list `l`. -/

def combos : Nat → List Nat → List (List Nat)
  | 0, _ => [[]]
  | _ + 1, [] => []
  | k + 1, x :: xs => (combos k xs).map (fun c => x :: c) ++ combos (k + 1) xs

/-- `test_groups = np.array(list(itt.combinations(np.arange(n), k)))`
(main.py line 276). -/
def combinations (n k : Nat) : List (List Nat) := combos k (List.range n)

theorem combos_length (k : Nat) (l : List Nat) :
    (combos k l).length = l.length.choose k := by
  induction l generalizing k with
  | nil => cases k <;> simp [combos]
  | cons x xs ih =>
    cases k with
    | zero => simp [combos]
    | succ k =>
      simp [combos, ih, Nat.choose_succ_succ, Nat.add_comm]

theorem mem_combos_subset {k : Nat} {l c : List Nat} (h : c ∈ combos k l) :
    ∀ a ∈ c, a ∈ l := by
  induction l generalizing k c with
  | nil =>
    cases k with
    | zero => simp [combos] at h; simp [h]
    | succ k => simp [combos] at h
  | cons x xs ih =>
    cases k with
    | zero => simp [combos] at h; simp [h]
    | succ k =>
      simp only [combos, List.mem_append, List.mem_map] at h
      rcases h with ⟨c', hc', rfl⟩ | h
      · intro a ha
        rcases List.mem_cons.mp ha with rfl | ha
        · exact List.mem_cons_self _ _
        · exact List.mem_cons_of_mem _ (ih hc' a ha)
      · intro a ha
        exact List.mem_cons_of_mem _ (ih h a ha)

theorem contains_eq_true_iff {α : Type} [BEq α] [LawfulBEq α]
    {l : List α} {a : α} :
    l.contains a = true ↔ a ∈ l :=
  ⟨List.mem_of_elem_eq_true, List.elem_eq_true_of_mem⟩

/-- In the lexicographic enumeration of (k+1)-combinations of a
duplicate-free list, a fixed member `j` of the list occurs in exactly
`C(len - 1, k)` combinations. -/
theorem combos_countP_contains (l : List Nat) (k j : Nat)
    (hnd : l.Nodup) (hj : j ∈ l) :
    (combos (k + 1) l).countP (fun c => c.contains j) =
      (l.length - 1).choose k := by
  induction l generalizing k with
  | nil => simp at hj
  | cons x xs ih =>
    have hndxs : xs.Nodup := (List.nodup_cons.mp hnd).2
    have hxnot : x ∉ xs := (List.nodup_cons.mp hnd).1
    have hexpand : combos (k + 1) (x :: xs) =
        (combos k xs).map (fun c => x :: c) ++ combos (k + 1) xs := rfl
    rcases List.mem_cons.mp hj with rfl | hjxs
    · -- j = x: every combination in the mapped half contains x, none in the other half does
      have h1 : ((combos k xs).map (fun c => j :: c)).countP (fun c => c.contains j) =
          (combos k xs).length := by
        rw [List.countP_map]
        rw [List.countP_eq_length]
        intro c _
        exact contains_eq_true_iff.mpr (List.mem_cons_self _ _)
      have h2 : (combos (k + 1) xs).countP (fun c => c.contains j) = 0 := by
        rw [List.countP_eq_zero]
        intro c hc hcx
        exact hxnot (mem_combos_subset hc _ (contains_eq_true_iff.mp hcx))
      rw [hexpand, List.countP_append, h1, h2, combos_length, Nat.add_zero]
      simp
    · -- j ≠ x (j in the tail)
      have hjx : j ≠ x := fun h => hxnot (h ▸ hjxs)
      have hxslen : 1 ≤ xs.length := List.length_pos.mpr (List.ne_nil_of_mem hjxs)
      have h1 : ((combos k xs).map (fun c => x :: c)).countP (fun c => c.contains j) =
          (combos k xs).countP (fun c => c.contains j) := by
        rw [List.countP_map]
        apply List.countP_congr
        intro c _
        simp only [Function.comp_apply]
        constructor
        · intro h
          rcases List.mem_cons.mp (contains_eq_true_iff.mp h) with h | h
          · exact absurd h hjx
          · exact contains_eq_true_iff.mpr h
        · intro h
          exact contains_eq_true_iff.mpr
            (List.mem_cons_of_mem _ (contains_eq_true_iff.mp h))
      cases k with
      | zero =>
        have h0 : (combos 0 xs).countP (fun c => c.contains j) = 0 := by
          cases xs <;> simp [combos, List.countP_cons]
        rw [hexpand, List.countP_append, h1, h0, Nat.zero_add, ih 0 hndxs hjxs]
        simp
      | succ k =>
        rw [hexpand, List.countP_append, h1, ih k hndxs hjxs, ih (k + 1) hndxs hjxs]
        have hlen : xs.length - 1 + 1 = xs.length := Nat.succ_pred_eq_of_pos hxslen
        calc (xs.length - 1).choose k + (xs.length - 1).choose (k + 1)
            = (xs.length - 1 + 1).choose (k + 1) := (Nat.choose_succ_succ _ _).symm
          _ = ((x :: xs).length - 1).choose (k + 1) := by
              rw [hlen]; simp

/-! ## cpcv_generator (main.py lines 258-314) -/

/-- `group_num = np.arange(t_span) // (t_span // n); group_num[group_num == n] = n - 1`
(main.py lines 273-274), read at one time step `t`. -/
def group_num (t_span n t : Nat) : Nat :=
  let g := t / (t_span / n)
  if g = n then n - 1 else g

/-- `is_test` (main.py lines 285-297): boolean mask of shape
[t_span × C(n,k)]; both the `k > 1` and the `k == 1` branch of the source
mark entry `(t, c)` exactly when the group of time step `t` lies in the
`c`-th test combination. -/
def is_test_matrix (t_span n k : Nat) : List (List Bool) :=
  (List.range t_span).map (fun t =>
    (combinations n k).map (fun c => c.contains (group_num t_span n t)))

/-- `C_nk = len(test_groups)` (main.py line 277). -/
def C_nk (n k : Nat) : Nat := (combinations n k).length

/-- `n_paths = C_nk * k // n` (main.py line 278); `//` is floor division. -/
def n_paths (n k : Nat) : Nat := C_nk n k * k / n

theorem C_nk_eq_choose (n k : Nat) : C_nk n k = n.choose k := by
  simp [C_nk, combinations, combos_length]

/-- `n · C(n-1, k-1) = C(n,k) · k` for `1 ≤ k`, `1 ≤ n`. -/
theorem n_mul_choose_pred (n k : Nat) (hk : 1 ≤ k) (hn : 1 ≤ n) :
    n * (n - 1).choose (k - 1) = n.choose k * k := by
  obtain ⟨n', rfl⟩ := Nat.exists_eq_add_of_le hn
  obtain ⟨k', rfl⟩ := Nat.exists_eq_add_of_le hk
  have := Nat.succ_mul_choose_eq n' k'
  simpa [Nat.succ_eq_add_one, Nat.add_comm 1, Nat.mul_comm] using this

/-! ## path assignment (main.py lines 299-312) -/

/-- `np.argmax` over a boolean row: position of the first `True`, as an
option (`none` when the row has no `True`). -/
def firstTrue : List Bool → Option Nat
  | [] => none
  | b :: rest => if b then some 0 else (firstTrue rest).map (fun i => i + 1)

/-- `is_test_group[j, :].argmax()` (main.py line 303): numpy argmax of a
boolean row, which is the index of the first `True`, or `0` when the row
is all `False`. -/
def argmax_bool (row : List Bool) : Nat := (firstTrue row).getD 0

/-- One inner-loop step of main.py lines 302-305 for group row `j`:
`s_idx = is_test_group[j, :].argmax(); path_folds[j, i] = s_idx;
is_test_group[j, s_idx] = False`. -/
def consume_row (row : List Bool) : Nat × List Bool :=
  (argmax_bool row, row.set (argmax_bool row) false)

/-- The folds assigned to one group row across paths `i = 0 .. m-1`
(main.py lines 301-305).  The source iterates paths `i` in the outer loop
and groups `j` in the inner loop over the shared `is_test_group` matrix,
but the step for pair `(i, j)` reads and writes only row `j`, so the
trace of a single row is this per-row iteration. -/
def path_folds_row : Nat → List Bool → List Nat
  | 0, _ => []
  | m + 1, row => (consume_row row).1 :: path_folds_row m (consume_row row).2

/-- Row `j` of `is_test_group` as built by main.py lines 284-297: entry
`c` says whether group `j` belongs to the `c`-th test combination (both
the `k > 1` and the `k == 1` branch set exactly these entries). -/
def is_test_group_row (n k j : Nat) : List Bool :=
  (combinations n k).map (fun c => c.contains j)

/-- `path_folds` (main.py lines 299-305), row-major: entry `j` lists, for
each path `i`, the combination index assigned to group `j` in path `i`. -/
def path_folds (n k : Nat) : List (List Nat) :=
  (List.range n).map (fun j => path_folds_row (n_paths n k) (is_test_group_row n k j))

/-- `paths` (main.py lines 307-312): entry `(t, p)` holds the fold id of
time step `t` along path `p`; a time step whose group id falls outside
`0..n-1` keeps the `np.nan` fill value (`none`). -/
def cpcv_paths (t_span n k : Nat) : List (List (Option Nat)) :=
  (List.range t_span).map (fun t =>
    (List.range (n_paths n k)).map (fun p =>
      if group_num t_span n t < n then
        some (((path_folds n k).getD (group_num t_span n t) []).getD p 0)
      else none))

/-- Positions of the `True` entries of a boolean row, in increasing
order. -/
def trueIdxs (row : List Bool) : List Nat :=
  (List.range row.length).filter (fun i => row.getD i false)

theorem trueIdxs_cons (b : Bool) (rest : List Bool) :
    trueIdxs (b :: rest) =
      (if b then [0] else []) ++ (trueIdxs rest).map (fun i => i + 1) := by
  unfold trueIdxs
  rw [List.length_cons, List.range_succ_eq_map, List.filter_cons, List.filter_map]
  cases b <;> simp [Function.comp_def, Nat.succ_eq_add_one]

theorem trueIdxs_length (row : List Bool) :
    (trueIdxs row).length = row.count true := by
  induction row with
  | nil => simp [trueIdxs]
  | cons b rest ih =>
    rw [trueIdxs_cons]
    cases b <;> simp [List.count_cons, ih]

theorem trueIdxs_mem (row : List Bool) (i : Nat) :
    i ∈ trueIdxs row ↔ i < row.length ∧ row.getD i false = true := by
  simp [trueIdxs, List.mem_filter, List.mem_range, and_comm]

theorem trueIdxs_pairwise (row : List Bool) :
    List.Pairwise (· < ·) (trueIdxs row) :=
  List.Pairwise.filter _ (List.pairwise_lt_range _)

theorem firstTrue_none_count {row : List Bool} (h : firstTrue row = none) :
    row.count true = 0 := by
  induction row with
  | nil => rfl
  | cons b rest ih =>
    cases b with
    | true => simp [firstTrue] at h
    | false =>
      rw [show firstTrue (false :: rest) = (firstTrue rest).map (fun i => i + 1)
          from rfl, Option.map_eq_none'] at h
      simp [List.count_cons, ih h]

theorem firstTrue_getD {row : List Bool} {s : Nat} (h : firstTrue row = some s) :
    row.getD s false = true := by
  induction row generalizing s with
  | nil => simp [firstTrue] at h
  | cons b rest ih =>
    cases b with
    | true =>
      have h0 : s = 0 := by
        simp [firstTrue] at h
        omega
      subst h0; rfl
    | false =>
      rw [show firstTrue (false :: rest) = (firstTrue rest).map (fun i => i + 1)
          from rfl, Option.map_eq_some'] at h
      obtain ⟨s0, hs0, hs1⟩ := h
      rw [← hs1]
      simpa using ih hs0

theorem count_true_set_false {row : List Bool} {s : Nat}
    (h : row.getD s false = true) :
    (row.set s false).count true + 1 = row.count true := by
  induction row generalizing s with
  | nil => simp [List.getD] at h
  | cons b rest ih =>
    cases s with
    | zero =>
      have hb : b = true := by simpa using h
      subst hb
      simp [List.count_cons]
    | succ s =>
      have h2 : rest.getD s false = true := by simpa using h
      have := ih h2
      cases b <;> simp [List.count_cons, List.set] <;> omega

/-- Shifting the row by a leading `False` shifts every pick by one, as
long as the iteration budget does not exhaust the available `True`s. -/
theorem path_folds_row_false_cons (m : Nat) :
    ∀ rest : List Bool, m ≤ rest.count true →
      path_folds_row m (false :: rest) =
        (path_folds_row m rest).map (fun i => i + 1) := by
  induction m with
  | zero => intro rest _; rfl
  | succ m ih =>
    intro rest hm
    cases hs : firstTrue rest with
    | none =>
      have := firstTrue_none_count hs
      omega
    | some s =>
      have hget : rest.getD s false = true := firstTrue_getD hs
      have hcount := count_true_set_false hget
      have harg : argmax_bool rest = s := by simp [argmax_bool, hs]
      have harg2 : argmax_bool (false :: rest) = s + 1 := by
        simp [argmax_bool, firstTrue, hs]
      have hset : (false :: rest).set (s + 1) false = false :: rest.set s false := rfl
      show (consume_row (false :: rest)).1 ::
          path_folds_row m (consume_row (false :: rest)).2 = _
      rw [show (consume_row (false :: rest)).1 = s + 1 by simp [consume_row, harg2],
        show (consume_row (false :: rest)).2 = false :: rest.set s false by
          simp [consume_row, harg2, hset]]
      rw [ih (rest.set s false) (by omega)]
      show _ = ((consume_row rest).1 :: path_folds_row m (consume_row rest).2).map _
      rw [show (consume_row rest).1 = s by simp [consume_row, harg],
        show (consume_row rest).2 = rest.set s false by simp [consume_row, harg]]
      rfl

/-- The greedy first-available consumption of main.py lines 301-305: when
run for exactly as many iterations as the row has `True` entries, it
picks precisely the positions of those entries, in increasing order. -/
theorem path_folds_row_trace (row : List Bool) :
    path_folds_row (row.count true) row = trueIdxs row := by
  induction row with
  | nil => simp [trueIdxs, List.count_nil, path_folds_row]
  | cons b rest ih =>
    cases b with
    | true =>
      have hcount : (true :: rest).count true = rest.count true + 1 := by
        simp [List.count_cons]
      rw [hcount]
      have harg : argmax_bool (true :: rest) = 0 := by simp [argmax_bool, firstTrue]
      show (consume_row (true :: rest)).1 ::
          path_folds_row (rest.count true) (consume_row (true :: rest)).2 = _
      rw [show (consume_row (true :: rest)).1 = 0 by simp [consume_row, harg],
        show (consume_row (true :: rest)).2 = false :: rest by
          simp [consume_row, harg, List.set]]
      rw [path_folds_row_false_cons _ rest (Nat.le_refl _), ih, trueIdxs_cons]
      rfl
    | false =>
      have hcount : (false :: rest).count true = rest.count true := by
        simp [List.count_cons]
      rw [hcount, path_folds_row_false_cons _ rest (Nat.le_refl _), ih, trueIdxs_cons]
      rfl

theorem getD_map_bool {α : Type} (f : α → Bool) (l : List α) (c : Nat) (d : α)
    (hc : c < l.length) :
    (l.map f).getD c false = f (l.getD c d) := by
  rw [List.getD_eq_getElem?_getD, List.getElem?_map, List.getD_eq_getElem?_getD,
    List.getElem?_eq_getElem hc]
  simp

theorem getD_range_map {β : Type} (f : Nat → β) (d : β) (t n0 : Nat) (ht : t < n0) :
    ((List.range n0).map f).getD t d = f t := by
  rw [List.getD_eq_getElem?_getD, List.getElem?_map]
  simp [List.getElem?_range, ht]

theorem group_num_min (t_span n : Nat) (hn : 1 ≤ n) (hnt : n ≤ t_span)
    (hrem : t_span % n ≤ t_span / n) (t : Nat) (ht : t < t_span) :
    group_num t_span n t < n ∧
      group_num t_span n t = min (t / (t_span / n)) (n - 1) := by
  have hq : 1 ≤ t_span / n := (Nat.one_le_div_iff (by omega)).mpr hnt
  have hdm : n * (t_span / n) + t_span % n = t_span := Nat.div_add_mod t_span n
  have hdivle : t / (t_span / n) ≤ n := by
    have hlt : t < (n + 1) * (t_span / n) := by
      have : (n + 1) * (t_span / n) = n * (t_span / n) + t_span / n := by ring
      omega
    have := (Nat.div_lt_iff_lt_mul (by omega : 0 < t_span / n)).mpr hlt
    omega
  unfold group_num
  by_cases hcase : t / (t_span / n) = n
  · rw [if_pos hcase, hcase]
    constructor
    · omega
    · omega
  · rw [if_neg hcase]
    constructor
    · omega
    · omega

/-- C1 (amended).  Under the extra condition `t_span % n ≤ t_span / n`
(automatic whenever `t_span ≥ n²`), `cpcv_generator` partitions the time
axis `0..t_span-1` into `n` contiguous groups: every time step gets a
group id in `0..n-1`, namely `min (t / (t_span / n)) (n - 1)` (so the
division remainder is absorbed by the last group), group ids are
monotone in `t`, and every group id below `n` is realised.  The test
mask has `t_span` rows of `C(n,k)` entries each, entry `(t, c)` holding
exactly the membership of `t`'s group in the `c`-th test combination,
and `n_paths = C(n,k)·k/n` is an exact integer division. -/
theorem cpcv_mask_partition (t_span n k : Nat) (hk : 1 ≤ k) (hkn : k ≤ n)
    (hnt : n ≤ t_span) (hrem : t_span % n ≤ t_span / n) :
    (is_test_matrix t_span n k).length = t_span ∧
    (∀ row ∈ is_test_matrix t_span n k, row.length = n.choose k) ∧
    (∀ t, t < t_span → group_num t_span n t < n ∧
        group_num t_span n t = min (t / (t_span / n)) (n - 1)) ∧
    (∀ t t', t ≤ t' → t' < t_span →
        group_num t_span n t ≤ group_num t_span n t') ∧
    (∀ i, i < n → ∃ t, t < t_span ∧ group_num t_span n t = i) ∧
    (∀ t c, t < t_span → c < C_nk n k →
        ((is_test_matrix t_span n k).getD t []).getD c false =
          ((combinations n k).getD c []).contains (group_num t_span n t)) ∧
    n_paths n k * n = C_nk n k * k := by
  have hn : 1 ≤ n := le_trans hk hkn
  have hq : 1 ≤ t_span / n := (Nat.one_le_div_iff (by omega)).mpr hnt
  refine ⟨?_, ?_, ?_, ?_, ?_, ?_, ?_⟩
  · simp [is_test_matrix]
  · intro row hrow
    simp only [is_test_matrix, List.mem_map] at hrow
    obtain ⟨t, _, rfl⟩ := hrow
    simp [combinations, combos_length]
  · intro t ht
    exact group_num_min t_span n hn hnt hrem t ht
  · intro t t' htt ht'
    have h1 := group_num_min t_span n hn hnt hrem t (by omega)
    have h2 := group_num_min t_span n hn hnt hrem t' ht'
    rw [h1.2, h2.2]
    have : t / (t_span / n) ≤ t' / (t_span / n) := Nat.div_le_div_right htt
    omega
  · intro i hi
    have hdm : n * (t_span / n) + t_span % n = t_span := Nat.div_add_mod t_span n
    have hmul : (i + 1) * (t_span / n) ≤ n * (t_span / n) :=
      Nat.mul_le_mul_right _ (by omega)
    have hexp : (i + 1) * (t_span / n) = i * (t_span / n) + t_span / n := by ring
    have hlt : i * (t_span / n) < t_span := by omega
    refine ⟨i * (t_span / n), hlt, ?_⟩
    have h1 := (group_num_min t_span n hn hnt hrem _ hlt).2
    rw [h1, Nat.mul_div_cancel _ (by omega : 0 < t_span / n)]
    omega
  · intro t c ht hc
    have h1 : (is_test_matrix t_span n k).getD t [] =
        (combinations n k).map (fun cb => cb.contains (group_num t_span n t)) := by
      rw [is_test_matrix, getD_range_map _ _ t t_span ht]
    rw [h1, getD_map_bool _ _ _ ([] : List Nat) hc]
  · have hchoose : n * (n - 1).choose (k - 1) = n.choose k * k :=
      n_mul_choose_pred n k hk hn
    have h3 : n_paths n k = (n - 1).choose (k - 1) := by
      rw [n_paths, C_nk_eq_choose, ← hchoose,
        Nat.mul_div_cancel_left _ (by omega : 0 < n)]
    rw [h3, C_nk_eq_choose, Nat.mul_comm]
    exact hchoose

/-- C1 counterexample: at the valid input `t_span = 11`, `n = 4`, `k = 1`
(so `1 ≤ k ≤ n ≤ t_span`), time step `t = 10` receives group id
`10 / (11 / 4) = 5`, which the clamp `group_num[group_num == n] = n - 1`
(main.py line 274) does not touch, so it lies outside `0..n-1`: the time
axis is not partitioned into `n` groups with the remainder absorbed by
the last group. -/
theorem cpcv_group_id_out_of_range :
    1 ≤ 1 ∧ 1 ≤ 4 ∧ 4 ≤ 11 ∧
      group_num 11 4 10 = 5 ∧ ¬ group_num 11 4 10 < 4 := by decide

theorem cpcv_mask_partition_witness :
    (is_test_matrix 10 5 2).length = 10 ∧ n_paths 5 2 * 5 = C_nk 5 2 * 2 :=
  ⟨(cpcv_mask_partition 10 5 2 (by decide) (by decide) (by decide) (by decide)).1,
   (cpcv_mask_partition 10 5 2 (by decide) (by decide) (by decide)
      (by decide)).2.2.2.2.2.2⟩

/-- C2.  For `1 ≤ k ≤ n` and any group `j < n`, the greedy first-available
assignment of main.py lines 299-305 gives group `j` a strictly increasing
sequence of `n_paths` fold ids (so no fold id repeats for the same group
across paths and every path assigns every group a fold), and the fold ids
used are exactly the combination indices whose test set contains `j`
(each such (group, combination) pairing is consumed by exactly one
path). -/
theorem cpcv_path_assignment (n k j : Nat) (hk : 1 ≤ k) (hkn : k ≤ n)
    (hj : j < n) :
    List.Pairwise (· < ·)
        (path_folds_row (n_paths n k) (is_test_group_row n k j)) ∧
    (path_folds_row (n_paths n k) (is_test_group_row n k j)).length =
        n_paths n k ∧
    ∀ c, c ∈ path_folds_row (n_paths n k) (is_test_group_row n k j) ↔
        c < C_nk n k ∧ ((combinations n k).getD c []).contains j = true := by
  have hn : 1 ≤ n := le_trans hk hkn
  have hlen : (is_test_group_row n k j).length = C_nk n k := by
    simp [is_test_group_row, C_nk]
  have h1 : (is_test_group_row n k j).count true =
      (combinations n k).countP (fun c => c.contains j) := by
    rw [is_test_group_row, List.count, List.countP_map]
    apply List.countP_congr
    intro c _
    simp
  have h2 : (combinations n k).countP (fun c => c.contains j) =
      (n - 1).choose (k - 1) := by
    have hkk : k - 1 + 1 = k := Nat.succ_pred_eq_of_pos hk
    rw [combinations, ← hkk,
      combos_countP_contains (List.range n) (k - 1) j (List.nodup_range n)
        (List.mem_range.mpr hj)]
    simp
  have h3 : n_paths n k = (n - 1).choose (k - 1) := by
    rw [n_paths, C_nk_eq_choose, ← n_mul_choose_pred n k hk hn,
      Nat.mul_div_cancel_left _ (by omega : 0 < n)]
  have hcount : (is_test_group_row n k j).count true = n_paths n k := by
    rw [h1, h2, h3]
  rw [← hcount, path_folds_row_trace]
  refine ⟨trueIdxs_pairwise _, ?_, ?_⟩
  · rw [trueIdxs_length]
  · intro c
    rw [trueIdxs_mem, hlen]
    constructor
    · rintro ⟨hc, hget⟩
      refine ⟨hc, ?_⟩
      rw [← hget, is_test_group_row,
        getD_map_bool _ _ _ ([] : List Nat) (by rw [← C_nk] at *; simpa [C_nk] using hc)]
    · rintro ⟨hc, hget⟩
      refine ⟨hc, ?_⟩
      rw [is_test_group_row,
        getD_map_bool _ _ _ ([] : List Nat) (by simpa [C_nk] using hc)]
      exact hget

theorem cpcv_path_assignment_witness :
    (path_folds_row (n_paths 5 2) (is_test_group_row 5 2 0)).length =
        n_paths 5 2 ∧
    List.Pairwise (· < ·)
        (path_folds_row (n_paths 5 2) (is_test_group_row 5 2 0)) :=
  ⟨(cpcv_path_assignment 5 2 0 (by decide) (by decide) (by decide)).2.1,
   (cpcv_path_assignment 5 2 0 (by decide) (by decide) (by decide)).1⟩

/-! ## duplicate-trial pruning in the per-fold search (main.py lines 485-512)

A trial's parameter assignment is abstracted to a `Nat` code (the source
only ever compares assignments for equality).  The shared optuna study is
the list of trials in creation order, each with its state. -/

inductive TrialStatus
  | running
  | complete
  | pruned
deriving DecidableEq

def TrialStatus.isComplete : TrialStatus → Bool
  | .complete => true
  | _ => false

/-- `completed_trials = [t for t in existing_trials if t.state == COMPLETE]`
and `existing_params = [t.params for t in completed_trials]`
(main.py lines 498-504). -/
def completedParams (s : List (Nat × TrialStatus)) : List Nat :=
  (s.filter (fun t => t.2.isComplete)).map Prod.fst

/-- The duplicate check of main.py lines 505-509, run when an objective
call starts: a candidate whose parameters match some already-completed
trial raises `TrialPruned` before the evaluation function is invoked,
otherwise the trial runs. -/
def startStatus (s : List (Nat × TrialStatus)) (p : Nat) : TrialStatus :=
  if (completedParams s).contains p then .pruned else .running

/-- Interleaved semantics of `study.optimize(..., n_jobs=n_jobs)` with the
scoring call abstracted: a step either starts an objective call (the
trial joins the shared history, and the duplicate check runs against the
completed trials visible at that moment) or finishes a running call (the
scoring returns and the trial becomes COMPLETE).  With `n_jobs > 1`
several objective calls are in flight at once, so starts and finishes of
different trials interleave on the shared study. -/
inductive OptStep : List (Nat × TrialStatus) → List (Nat × TrialStatus) → Prop
  | start (s : List (Nat × TrialStatus)) (p : Nat) :
      OptStep s (s ++ [(p, startStatus s p)])
  | finish (s : List (Nat × TrialStatus)) (i p : Nat)
      (h : s[i]? = some (p, .running)) :
      OptStep s (s.set i (p, .complete))

def OptReachable (s : List (Nat × TrialStatus)) : Prop :=
  Relation.ReflTransGen OptStep [] s

/-- C3 counterexample: under concurrent evaluation the claim fails.  Two
workers both propose the same parameters, both run the duplicate check
while neither has completed (so both pass), and then both complete: a
study holding two COMPLETE trials with identical parameters is reachable
from the empty study.  The check-then-score window of main.py lines
497-512 is not atomic across `n_jobs` workers. -/
theorem duplicate_completed_trials_reachable :
    OptReachable [(0, .complete), (0, .complete)] ∧
      ¬ (completedParams [(0, .complete), (0, .complete)]).Nodup := by
  constructor
  · have s1 : OptStep [] [(0, TrialStatus.running)] := OptStep.start [] 0
    have s2 : OptStep [(0, TrialStatus.running)]
        [(0, TrialStatus.running), (0, TrialStatus.running)] :=
      OptStep.start [(0, TrialStatus.running)] 0
    have s3 : OptStep [(0, TrialStatus.running), (0, TrialStatus.running)]
        [(0, TrialStatus.complete), (0, TrialStatus.running)] :=
      OptStep.finish _ 0 0 rfl
    have s4 : OptStep [(0, TrialStatus.complete), (0, TrialStatus.running)]
        [(0, TrialStatus.complete), (0, TrialStatus.complete)] :=
      OptStep.finish _ 1 0 rfl
    exact (((Relation.ReflTransGen.refl.tail s1).tail s2).tail s3).tail s4
  · decide

/-- One whole objective call under `n_jobs = 1`: the duplicate check and
the scoring run back to back with no other trial in flight, so the trial
is appended either already pruned or already complete. -/
def seqStep (s : List (Nat × TrialStatus)) (p : Nat) :
    List (Nat × TrialStatus) :=
  s ++ [(p, if (completedParams s).contains p then .pruned else .complete)]

def seqRun (ps : List Nat) : List (Nat × TrialStatus) := ps.foldl seqStep []

theorem completedParams_append (s t : List (Nat × TrialStatus)) :
    completedParams (s ++ t) = completedParams s ++ completedParams t := by
  simp [completedParams, List.filter_append]

theorem seqRun_nodup_aux (ps : List Nat) :
    ∀ s, (completedParams s).Nodup →
      (completedParams (ps.foldl seqStep s)).Nodup := by
  induction ps with
  | nil => intro s hs; exact hs
  | cons p rest ih =>
    intro s hs
    simp only [List.foldl_cons]
    apply ih
    unfold seqStep
    by_cases hmem : (completedParams s).contains p = true
    · rw [if_pos hmem, completedParams_append]
      have h0 : completedParams [(p, TrialStatus.pruned)] = [] := rfl
      rw [h0, List.append_nil]
      exact hs
    · rw [if_neg hmem, completedParams_append]
      have h1 : completedParams [(p, TrialStatus.complete)] = [p] := rfl
      rw [h1]
      have hnot : p ∉ completedParams s := fun hc =>
        hmem (contains_eq_true_iff.mpr hc)
      refine List.Nodup.append hs (List.nodup_singleton p) ?_
      intro a ha hb
      rw [List.mem_singleton] at hb
      exact hnot (hb ▸ ha)

/-- C3 (amended).  Before a candidate is scored, its parameter assignment
is compared with the assignments of the already-completed trials of the
fold's study, and an exact match prunes it without scoring.  With
sequential evaluation (`n_jobs = 1`, where the check and the completion
of a trial are adjacent), no two COMPLETE trials of a fold ever share a
parameter assignment.  Under concurrent evaluation the guarantee fails
(see the counterexample): the check and the completion are separate
events on the shared history. -/
theorem no_duplicate_completed_sequential :
    (∀ s p, p ∈ completedParams s → seqStep s p = s ++ [(p, .pruned)]) ∧
    (∀ ps : List Nat, (completedParams (seqRun ps)).Nodup) := by
  constructor
  · intro s p hp
    unfold seqStep
    rw [if_pos (contains_eq_true_iff.mpr hp)]
  · intro ps
    exact seqRun_nodup_aux ps [] (by simp [completedParams])

theorem no_duplicate_completed_sequential_witness :
    (completedParams (seqRun [0, 0, 1])).Nodup ∧
      seqStep [(0, .complete)] 0 = [(0, .complete), (0, .pruned)] :=
  ⟨no_duplicate_completed_sequential.2 [0, 0, 1],
   no_duplicate_completed_sequential.1 [(0, .complete)] 0 (by decide)⟩

/-! ## per-fold scoring (main.py lines 59-81) and trial ranking (530-540)

Python floats are embedded as `PyFloat`: NaN or an exact rational.  The
claims settled here concern NaN propagation and selection, not rounding. -/

inductive PyFloat
  | nan
  | val (q : ℚ)
deriving DecidableEq

def PyFloat.isNan : PyFloat → Bool
  | .nan => true
  | _ => false

def PyFloat.toRat : PyFloat → ℚ
  | .nan => 0
  | .val q => q

/-- The non-NaN entries of a list of floats. -/
def pyVals (l : List PyFloat) : List ℚ :=
  l.filterMap (fun x => match x with | .nan => none | .val q => some q)

/-- `np.nanmean`: the mean of the non-NaN entries, NaN when none remain. -/
def nanmean (l : List PyFloat) : PyFloat :=
  if (pyVals l).isEmpty then .nan else .val ((pyVals l).sum / (pyVals l).length)

/-- `standalone_combcv_pl` (main.py lines 59-81), with the trial
parameters folded into `calc_pl` and the external `annual_sharpe` metric
abstract: evaluates `calc_pl` once per group, keeps the Sharpe ratios of
the non-empty return series, and aggregates them with `np.nanmean`
(line 80). -/
def standalone_combcv_pl {α : Type} (annual_sharpe : List ℚ → PyFloat)
    (calc_pl : α → List ℚ) (group_dict : List α) : PyFloat × List (List ℚ) :=
  let final_returns := group_dict.map calc_pl
  let sharpe_ratios :=
    (final_returns.filter (fun r => !r.isEmpty)).map annual_sharpe
  (nanmean sharpe_ratios, final_returns)

/-- The score as the claim words it: the plain arithmetic mean of the
Sharpe ratios of the non-empty per-group series, only the empty-series
groups being discarded (a float mean is NaN as soon as one entry is
NaN). -/
def claimed_fold_score {α : Type} (annual_sharpe : List ℚ → PyFloat)
    (calc_pl : α → List ℚ) (group_dict : List α) : PyFloat :=
  let sharpe_ratios :=
    ((group_dict.map calc_pl).filter (fun r => !r.isEmpty)).map annual_sharpe
  if sharpe_ratios.isEmpty then .nan
  else if sharpe_ratios.any PyFloat.isNan then .nan
  else .val ((sharpe_ratios.map PyFloat.toRat).sum / sharpe_ratios.length)

/-- A Sharpe metric exhibiting the divergence: NaN on the series `[1]`
and `1` elsewhere (the annualized Sharpe of a non-empty series can be
NaN, e.g. for a constant series with zero standard deviation). -/
def cex_sharpe (s : List ℚ) : PyFloat := if s = [1] then .nan else .val 1

/-- C4 counterexample: with two non-empty groups, one of whose Sharpe
ratios is NaN, `np.nanmean` (main.py line 80) silently drops the NaN
entry and scores the trial 1, whereas the mean of the Sharpe ratios of
the non-empty groups — what the claim states the score equals — is NaN. -/
theorem fold_score_not_plain_mean :
    (standalone_combcv_pl cex_sharpe id [[1], [2]]).1 = .val 1 ∧
      claimed_fold_score cex_sharpe id [[1], [2]] = .nan ∧
      PyFloat.val 1 ≠ PyFloat.nan := by
  refine ⟨?_, ?_, by simp⟩
  · simp only [standalone_combcv_pl]
    norm_num [nanmean, pyVals, cex_sharpe, List.filterMap_cons, List.filterMap_nil]
  · simp only [claimed_fold_score]
    norm_num [cex_sharpe, PyFloat.isNan]

/-- A trial as the fold ranking sees it: parameter code and objective
value. -/
structure StudyTrial where
  params : Nat
  value : PyFloat
deriving DecidableEq

/-- Modelled from the spec: the guided-search library (optuna) is
external to this repository.  Its documented behaviour is that trials
returning NaN are treated as failures, so a NaN-scored trial is recorded
FAILED rather than COMPLETE; only trials with a numeric value become
COMPLETE.  Each scored trial is tagged with its COMPLETE flag
accordingly. -/
def mkStudyTrials (results : List (Nat × PyFloat)) : List (StudyTrial × Bool) :=
  results.map (fun r => (⟨r.1, r.2⟩, !r.2.isNan))

/-- The ranking of main.py lines 530-540 and the selection of line 565:
keep the COMPLETE trials, sort them by value in descending order, take
the head as the fold's best (`top_params[0]`). -/
def fold_best (results : List (Nat × PyFloat)) : Option StudyTrial :=
  (List.insertionSort (fun a b : StudyTrial => b.value.toRat ≤ a.value.toRat)
    (((mkStudyTrials results).filter (fun t => t.2)).map Prod.fst)).head?

/-- C4 (amended).  The fold score is `np.nanmean` of the Sharpe ratios of
the non-empty per-group series: NaN Sharpe values are dropped as well as
empty groups, the score is NaN exactly when no non-NaN Sharpe remains —
in particular when every group's series is empty — and a NaN-scored
trial is recorded as failed by the search library (per its documented
NaN handling), hence excluded from the descending ranking of completed
trials and never selected as the fold's best. -/
theorem fold_score_nanmean_and_nan_never_best :
    (∀ (α : Type) (annual_sharpe : List ℚ → PyFloat) (calc_pl : α → List ℚ)
        (group_dict : List α),
      (∀ g ∈ group_dict, (calc_pl g).isEmpty = true) →
        (standalone_combcv_pl annual_sharpe calc_pl group_dict).1 = .nan) ∧
    (∀ (α : Type) (annual_sharpe : List ℚ → PyFloat) (calc_pl : α → List ℚ)
        (group_dict : List α),
      (standalone_combcv_pl annual_sharpe calc_pl group_dict).1 = .nan ↔
        ∀ r ∈ (group_dict.map calc_pl).filter (fun r => !r.isEmpty),
          (annual_sharpe r).isNan = true) ∧
    (∀ (results : List (Nat × PyFloat)) (t : StudyTrial),
      fold_best results = some t → t.value.isNan = false) := by
  have hchar : ∀ l : List PyFloat,
      pyVals l = [] ↔ ∀ x ∈ l, x.isNan = true := by
    intro l
    rw [pyVals, List.filterMap_eq_nil_iff]
    constructor
    · intro h x hx
      have := h x hx
      cases x with
      | nan => rfl
      | val q => simp at this
    · intro h x hx
      have := h x hx
      cases x with
      | nan => rfl
      | val q => simp [PyFloat.isNan] at this
  have hnan : ∀ l : List PyFloat,
      nanmean l = .nan ↔ ∀ x ∈ l, x.isNan = true := by
    intro l
    unfold nanmean
    by_cases hl : pyVals l = []
    · rw [if_pos (by rw [hl]; rfl)]
      simp only [true_iff]
      exact (hchar l).mp hl
    · have hbool : (pyVals l).isEmpty = false := by
        cases hv : pyVals l with
        | nil => exact absurd hv hl
        | cons a s => rfl
      rw [if_neg (show ¬ ((pyVals l).isEmpty = true) by simp [hbool])]
      constructor
      · intro h; exact absurd h (by simp)
      · intro hall; exact absurd ((hchar l).mpr hall) hl
  refine ⟨?_, ?_, ?_⟩
  · intro α annual_sharpe calc_pl group_dict hall
    show nanmean _ = _
    rw [hnan]
    intro x hx
    rw [List.mem_map] at hx
    obtain ⟨r, hr, rfl⟩ := hx
    rw [List.mem_filter] at hr
    rcases List.mem_map.mp hr.1 with ⟨g, hg, rfl⟩
    rw [hall g hg] at hr
    simp at hr
  · intro α annual_sharpe calc_pl group_dict
    show nanmean _ = _ ↔ _
    rw [hnan]
    constructor
    · intro h r hr
      exact h (annual_sharpe r) (List.mem_map_of_mem _ hr)
    · intro h x hx
      rcases List.mem_map.mp hx with ⟨r, hr, rfl⟩
      exact h r hr
  · intro results t hbest
    unfold fold_best at hbest
    have hmem : t ∈
        List.insertionSort (fun a b : StudyTrial => b.value.toRat ≤ a.value.toRat)
          (((mkStudyTrials results).filter (fun t => t.2)).map Prod.fst) := by
      exact List.mem_of_mem_head? (Option.mem_def.mpr hbest)
    have hmem2 : t ∈ ((mkStudyTrials results).filter (fun t => t.2)).map Prod.fst :=
      (List.perm_insertionSort _ _).mem_iff.mp hmem
    rcases List.mem_map.mp hmem2 with ⟨pair, hpair, rfl⟩
    rw [List.mem_filter] at hpair
    rcases List.mem_map.mp hpair.1 with ⟨r, _, rfl⟩
    have := hpair.2
    simp only [Bool.not_eq_true'] at this
    simpa using this

theorem fold_score_nanmean_witness :
    (standalone_combcv_pl cex_sharpe id ([[]] : List (List ℚ))).1 =
        PyFloat.nan ∧
      (StudyTrial.mk 1 (PyFloat.val 1)).value.isNan = false :=
  ⟨fold_score_nanmean_and_nan_never_best.1 (List ℚ) cex_sharpe id [[]]
      (by simp),
   fold_score_nanmean_and_nan_never_best.2.2 [(0, .nan), (1, .val 1)]
      ⟨1, .val 1⟩ (by decide)⟩

/-! ## cluster_and_aggregate, small-pool branch (main.py lines 750-823) -/

/-- A validated trial as carried in `top_params_list`: its parameter
assignment (abstracted to a code) and its validation Sharpe. -/
structure ValTrial where
  params : Nat
  sharpe : ℚ
deriving DecidableEq

/-- `max_clusters = min(max(3, len(param_df) // 3), len(param_df))`
(main.py line 774); `param_df` has one row per pooled trial. -/
def max_clusters (poolLen : Nat) : Nat := min (max 3 (poolLen / 3)) poolLen

inductive AggResult
  | clustered
  | best (t : ValTrial)
  | indexError
deriving DecidableEq

/-- The branch structure of `cluster_and_aggregate` (main.py lines
774-821): when `max_clusters > 2` the clustering pipeline runs (left
abstract, `clustered`); otherwise the function returns
`pd.DataFrame(self.top_params_list).iloc[0].to_dict()` — the first row
of the pool, an `IndexError` on an empty pool. -/
def cluster_and_aggregate_trials (pool : List ValTrial) : AggResult :=
  if 2 < max_clusters pool.length then .clustered
  else
    match pool with
    | [] => .indexError
    | t :: _ => .best t

/-- C5 counterexample: a two-trial pool is below the clustering
threshold (`max_clusters = 2`), and the small-pool branch returns the
first trial of the pool (`iloc[0]`), not the trial with the highest
validation score — here the second trial scores strictly higher. -/
theorem small_pool_first_not_highest :
    cluster_and_aggregate_trials [⟨0, 1⟩, ⟨1, 5⟩] = AggResult.best ⟨0, 1⟩ ∧
      (⟨1, 5⟩ : ValTrial) ∈ [(⟨0, 1⟩ : ValTrial), ⟨1, 5⟩] ∧
      (⟨0, 1⟩ : ValTrial).sharpe < (⟨1, 5⟩ : ValTrial).sharpe := by
  refine ⟨rfl, by simp, ?_⟩
  show (1 : ℚ) < 5
  norm_num

/-- C5 (amended).  When the pool is below the clustering threshold
(`max_clusters ≤ 2`, i.e. at most two pooled trials), no clustering is
performed and the first trial of the pool is returned unmodified; this
is the highest-scoring trial exactly when the pool is sorted descending
by validation score (as it is when reloaded from the persisted
`top_params` artifact, which is saved sorted by `sharpe`). -/
theorem small_pool_returns_top (t : ValTrial) (rest : List ValTrial)
    (hsmall : ¬ 2 < max_clusters (t :: rest).length)
    (hsorted : (t :: rest).Pairwise (fun a b => b.sharpe ≤ a.sharpe)) :
    cluster_and_aggregate_trials (t :: rest) = .best t ∧
      ∀ u ∈ t :: rest, u.sharpe ≤ t.sharpe := by
  constructor
  · unfold cluster_and_aggregate_trials
    rw [if_neg hsmall]
  · intro u hu
    rcases List.mem_cons.mp hu with rfl | hu
    · exact le_refl _
    · exact (List.pairwise_cons.mp hsorted).1 u hu

theorem small_pool_returns_top_witness :
    cluster_and_aggregate_trials [⟨1, 5⟩, ⟨0, 1⟩] = .best ⟨1, 5⟩ ∧
      (⟨0, 1⟩ : ValTrial).sharpe ≤ (⟨1, 5⟩ : ValTrial).sharpe :=
  ⟨(small_pool_returns_top ⟨1, 5⟩ [⟨0, 1⟩] (by decide)
      (by simp [List.pairwise_cons])).1,
   (small_pool_returns_top ⟨1, 5⟩ [⟨0, 1⟩] (by decide)
      (by simp [List.pairwise_cons])).2 ⟨0, 1⟩ (by simp)⟩

/-! ## aggregate_params (main.py lines 844-865) -/

inductive ParamValue
  | num (q : ℚ)
  | boolean (b : Bool)
  | cat (s : String)
  | numlist (l : List ℚ)
deriving DecidableEq

/-- `np.mean` of a flat list of numbers. -/
def pymean (l : List ℚ) : ℚ := l.sum / l.length

/-- `np.mean(values, axis=0)` for a list of equal-length rows:
elementwise mean. -/
def meanAxis0 (rows : List (List ℚ)) : List ℚ :=
  match rows with
  | [] => []
  | r0 :: _ =>
      (List.range r0.length).map (fun i => pymean (rows.map (fun r => r.getD i 0)))

/-- `max(set(values), key=values.count)`: a value of maximal
multiplicity.  Python iterates the set in an unspecified order; here the
first maximal value in first-occurrence order wins, which agrees with
Python on the singleton lists the settled claim is about. -/
def mostCommon {α : Type} [DecidableEq α] (values : List α) : Option α :=
  values.dedup.foldl
    (fun best v =>
      match best with
      | none => some v
      | some b => if values.count b < values.count v then some v else best)
    none

/-- One key's aggregation in `aggregate_params` (main.py lines 855-864),
dispatching on the type of the first value: elementwise mean for lists,
majority for booleans, mean for numbers, majority for everything else.
The projections with defaults never fire on homogeneous value lists,
the only ones the source can produce from one search space. -/
def aggregate_value (values : List ParamValue) : ParamValue :=
  match values.head? with
  | some (.numlist _) =>
      .numlist (meanAxis0 (values.map (fun v =>
        match v with | .numlist l => l | _ => [])))
  | some (.boolean _) =>
      .boolean ((mostCommon (values.map (fun v =>
        match v with | .boolean b => b | _ => false))).getD false)
  | some (.num _) =>
      .num (pymean (values.map (fun v => match v with | .num q => q | _ => 0)))
  | some (.cat _) =>
      .cat ((mostCommon (values.map (fun v =>
        match v with | .cat s => s | _ => ""))).getD "")
  | none => .cat ""

/-- Dict access `param[key]` on an association list. -/
def plookup (key : String) :
    List (String × ParamValue) → Option ParamValue
  | [] => none
  | kv :: rest => if key = kv.1 then some kv.2 else plookup key rest

/-- `aggregate_params` (main.py lines 844-865): for each key of the
first trial, collect that key's values across all trials and aggregate
them. -/
def aggregate_params (params_list : List (List (String × ParamValue))) :
    List (String × ParamValue) :=
  match params_list.head? with
  | none => []
  | some first =>
      first.map (fun kv =>
        (kv.1, aggregate_value (params_list.filterMap (plookup kv.1))))

theorem plookup_of_mem {p : List (String × ParamValue)} {k : String}
    {v : ParamValue} (hnd : (p.map Prod.fst).Nodup) (hmem : (k, v) ∈ p) :
    plookup k p = some v := by
  induction p with
  | nil => simp at hmem
  | cons kv rest ih =>
    rw [List.map_cons, List.nodup_cons] at hnd
    rcases List.mem_cons.mp hmem with heq | hmem2
    · rw [← heq]
      show (if k = k then some v else plookup k rest) = some v
      rw [if_pos rfl]
    · show (if k = kv.1 then some kv.2 else plookup k rest) = some v
      have hk : k ≠ kv.1 := by
        intro hkk
        apply hnd.1
        rw [← hkk]
        exact List.mem_map_of_mem Prod.fst hmem2
      rw [if_neg hk]
      exact ih hnd.2 hmem2

theorem range_map_getD {α : Type} (l : List α) (d : α) :
    (List.range l.length).map (fun i => l.getD i d) = l := by
  induction l with
  | nil => rfl
  | cons x xs ih =>
    rw [List.length_cons, List.range_succ_eq_map, List.map_cons, List.map_map]
    have h1 : ((fun i => (x :: xs).getD i d) ∘ Nat.succ) =
        (fun i => xs.getD i d) := rfl
    rw [h1, ih]
    rfl

theorem aggregate_value_singleton (v : ParamValue) :
    aggregate_value [v] = v := by
  cases v with
  | num q =>
    show ParamValue.num (pymean [q]) = ParamValue.num q
    rw [pymean]
    norm_num
  | boolean b => rfl
  | cat s => rfl
  | numlist l =>
    show ParamValue.numlist (meanAxis0 [l]) = ParamValue.numlist l
    unfold meanAxis0
    congr 1
    have : ∀ i : Nat, pymean ([l].map (fun r => r.getD i 0)) = l.getD i 0 := by
      intro i
      show pymean [l.getD i 0] = l.getD i 0
      rw [pymean]
      norm_num
    calc (List.range l.length).map (fun i => pymean ([l].map (fun r => r.getD i 0)))
        = (List.range l.length).map (fun i => l.getD i 0) :=
          List.map_congr_left (fun i _ => this i)
      _ = l := range_map_getD l 0

/-- C6.  Aggregating a single-trial list returns that trial: every key
keeps the value it had (for a numeric or list value the mean of one
element is that element; for a boolean or categorical value the majority
of one element is that element).  The trial's keys are distinct, as
Python dict keys always are. -/
theorem aggregate_params_singleton (p : List (String × ParamValue))
    (hnd : (p.map Prod.fst).Nodup) :
    aggregate_params [p] = p := by
  unfold aggregate_params
  show p.map (fun kv =>
      (kv.1, aggregate_value ([p].filterMap (plookup kv.1)))) = p
  calc p.map (fun kv => (kv.1, aggregate_value ([p].filterMap (plookup kv.1))))
      = p.map id := by
        apply List.map_congr_left
        intro kv hkv
        have hl : plookup kv.1 p = some kv.2 :=
          plookup_of_mem hnd (by simpa using hkv)
        have hfm : [p].filterMap (plookup kv.1) = [kv.2] := by
          simp [List.filterMap, hl]
        rw [hfm, aggregate_value_singleton]
        rfl
    _ = p := List.map_id p

theorem aggregate_params_singleton_witness :
    aggregate_params
        [[("a", .num 3), ("b", .boolean true), ("c", .cat "x"),
          ("d", .numlist [1, 2])]] =
      [("a", .num 3), ("b", .boolean true), ("c", .cat "x"),
        ("d", .numlist [1, 2])] :=
  aggregate_params_singleton _ (by decide)

/-! ## reconstruct_equity_curves precondition checks (main.py lines 594-612)

A ticker's path matrix is modelled column-major: the list of its path
columns, each column listing the fold id of every time step.  Fold ids
are naturals; the checks read only shapes and per-column value sets. -/

abbrev PathMatrix := List (List Nat)

/-- `set(np.unique(a)) == set(np.unique(b))`: the two columns hold the
same set of values. -/
def sameValueSet (a b : List Nat) : Bool :=
  a.all (fun x => b.contains x) && b.all (fun x => a.contains x)

/-- The precondition checks of `reconstruct_equity_curves` (main.py
lines 601-612), run before any fold is evaluated: with
`arrays = list(self.backtest_paths.values())`, the source raises when
`not all(arr.shape[1] == num_columns for arr in arrays)` with
`num_columns = arrays[0].shape[1]` (here: the all-true branch
continues), then raises when some path column's fold-id set differs from
the first ticker's; otherwise reconstruction proceeds.  An empty
`backtest_paths` raises `IndexError` at `arrays[0]`. -/
def reconstruct_check : List PathMatrix → Except String Unit
  | [] => .error "IndexError: list index out of range"
  | a0 :: rest =>
      if (a0 :: rest).all (fun arr => arr.length == a0.length) then
        if (List.range a0.length).any (fun col =>
            rest.any (fun arr =>
              !sameValueSet (a0.getD col []) (arr.getD col []))) then
          .error "Tickers have different parameter folds within same backtest path number"
        else .ok ()
      else .error "Tickers have different number of backtest paths"

theorem sameValueSet_iff (a b : List Nat) :
    sameValueSet a b = true ↔ ∀ x, x ∈ a ↔ x ∈ b := by
  unfold sameValueSet
  rw [Bool.and_eq_true, List.all_eq_true, List.all_eq_true]
  constructor
  · rintro ⟨h1, h2⟩ x
    exact ⟨fun hx => contains_eq_true_iff.mp (h1 x hx),
           fun hx => contains_eq_true_iff.mp (h2 x hx)⟩
  · intro h
    exact ⟨fun x hx => contains_eq_true_iff.mpr ((h x).mp hx),
           fun x hx => contains_eq_true_iff.mpr ((h x).mpr hx)⟩

theorem shape_all_iff (a0 : PathMatrix) (rest : List PathMatrix) :
    (a0 :: rest).all (fun arr => arr.length == a0.length) = true ↔
      ∀ m1 ∈ a0 :: rest, ∀ m2 ∈ a0 :: rest, m1.length = m2.length := by
  rw [List.all_eq_true]
  constructor
  · intro h m1 h1 m2 h2
    rw [beq_iff_eq.mp (h m1 h1), beq_iff_eq.mp (h m2 h2)]
  · intro h m hm
    exact beq_iff_eq.mpr (h m hm a0 (List.mem_cons_self _ _))

theorem cols_any_iff (a0 : PathMatrix) (rest : List PathMatrix) :
    ((List.range a0.length).any (fun col =>
        rest.any (fun arr =>
          !sameValueSet (a0.getD col []) (arr.getD col [])))) = false ↔
      ∀ col, col < a0.length → ∀ m1 ∈ a0 :: rest, ∀ m2 ∈ a0 :: rest,
        ∀ x, x ∈ m1.getD col [] ↔ x ∈ m2.getD col [] := by
  constructor
  · intro hfalse col hcol m1 hm1 m2 hm2 x
    have hall : ∀ arr ∈ rest,
        sameValueSet (a0.getD col []) (arr.getD col []) = true := by
      intro arr harr
      cases hsv : sameValueSet (a0.getD col []) (arr.getD col []) with
      | true => rfl
      | false =>
        exfalso
        have htrue : ((List.range a0.length).any (fun col =>
            rest.any (fun arr =>
              !sameValueSet (a0.getD col []) (arr.getD col [])))) = true := by
          rw [List.any_eq_true]
          refine ⟨col, List.mem_range.mpr hcol, ?_⟩
          rw [List.any_eq_true]
          exact ⟨arr, harr, by rw [hsv]; rfl⟩
        rw [hfalse] at htrue
        exact Bool.false_ne_true htrue
    have key : ∀ m ∈ a0 :: rest, ∀ y : Nat,
        (y ∈ m.getD col [] ↔ y ∈ a0.getD col []) := by
      intro m hm y
      rcases List.mem_cons.mp hm with rfl | hm2
      · exact Iff.rfl
      · exact ((sameValueSet_iff _ _).mp (hall m hm2) y).symm
    rw [key m1 hm1 x, key m2 hm2 x]
  · intro h
    cases hany : ((List.range a0.length).any (fun col =>
        rest.any (fun arr =>
          !sameValueSet (a0.getD col []) (arr.getD col [])))) with
    | false => rfl
    | true =>
      exfalso
      rw [List.any_eq_true] at hany
      obtain ⟨col, hcolmem, hcol2⟩ := hany
      rw [List.any_eq_true] at hcol2
      obtain ⟨arr, harr, hneg⟩ := hcol2
      have hsame : sameValueSet (a0.getD col []) (arr.getD col []) = true :=
        (sameValueSet_iff _ _).mpr (fun x =>
          h col (List.mem_range.mp hcolmem) a0 (List.mem_cons_self _ _)
            arr (List.mem_cons_of_mem _ harr) x)
      rw [hsame] at hneg
      simp at hneg

/-- C7.  `reconstruct_equity_curves` proceeds past its precondition
checks if and only if every pair of tickers agrees on the number of path
columns and, for every path column, on the set of fold ids in that
column; it raises — before evaluating any fold — if and only if some
pair disagrees.  Stated for a non-empty collection of path matrices:
the reconstruction stage presupposes at least one ticker was assigned
backtest paths. -/
theorem reconstruct_check_iff (a0 : PathMatrix) (rest : List PathMatrix) :
    (reconstruct_check (a0 :: rest) = .ok () ↔
      ((∀ m1 ∈ a0 :: rest, ∀ m2 ∈ a0 :: rest, m1.length = m2.length) ∧
       (∀ col, col < a0.length → ∀ m1 ∈ a0 :: rest, ∀ m2 ∈ a0 :: rest,
         ∀ x, x ∈ m1.getD col [] ↔ x ∈ m2.getD col []))) ∧
    ((∃ e, reconstruct_check (a0 :: rest) = .error e) ↔
      ¬ ((∀ m1 ∈ a0 :: rest, ∀ m2 ∈ a0 :: rest, m1.length = m2.length) ∧
         (∀ col, col < a0.length → ∀ m1 ∈ a0 :: rest, ∀ m2 ∈ a0 :: rest,
           ∀ x, x ∈ m1.getD col [] ↔ x ∈ m2.getD col []))) := by
  have hstep : reconstruct_check (a0 :: rest) =
      (if (a0 :: rest).all (fun arr => arr.length == a0.length) then
        if (List.range a0.length).any (fun col =>
            rest.any (fun arr =>
              !sameValueSet (a0.getD col []) (arr.getD col []))) then
          Except.error
            "Tickers have different parameter folds within same backtest path number"
        else Except.ok ()
      else Except.error "Tickers have different number of backtest paths") := rfl
  have hok : reconstruct_check (a0 :: rest) = .ok () ↔
      ((∀ m1 ∈ a0 :: rest, ∀ m2 ∈ a0 :: rest, m1.length = m2.length) ∧
       (∀ col, col < a0.length → ∀ m1 ∈ a0 :: rest, ∀ m2 ∈ a0 :: rest,
         ∀ x, x ∈ m1.getD col [] ↔ x ∈ m2.getD col [])) := by
    rw [hstep]
    by_cases h1 : (a0 :: rest).all (fun arr => arr.length == a0.length) = true
    · rw [if_pos h1]
      by_cases h2 : ((List.range a0.length).any (fun col =>
          rest.any (fun arr =>
            !sameValueSet (a0.getD col []) (arr.getD col [])))) = true
      · rw [if_pos h2]
        constructor
        · intro hcon
          exact Except.noConfusion hcon
        · rintro ⟨_, hcols⟩
          exfalso
          have hf := (cols_any_iff a0 rest).mpr hcols
          rw [hf] at h2
          exact Bool.false_ne_true h2
      · rw [if_neg h2]
        rw [Bool.not_eq_true] at h2
        constructor
        · intro _
          exact ⟨(shape_all_iff a0 rest).mp h1, (cols_any_iff a0 rest).mp h2⟩
        · intro _
          rfl
    · rw [if_neg h1]
      constructor
      · intro hcon
        exact Except.noConfusion hcon
      · rintro ⟨hlens, _⟩
        exact absurd ((shape_all_iff a0 rest).mpr hlens) h1
  refine ⟨hok, ?_, ?_⟩
  · rintro ⟨e, he⟩ hP
    rw [hok.mpr hP] at he
    exact Except.noConfusion he
  · intro hnP
    cases hres : reconstruct_check (a0 :: rest) with
    | ok u => exact absurd (hok.mp (by rw [hres])) hnP
    | error e => exact ⟨e, rfl⟩

theorem reconstruct_check_witness :
    reconstruct_check [[[0, 1], [2, 3]], [[1, 0], [3, 2]]] = .ok () ∧
      (0 ∈ ([0, 1] : List Nat) ↔ 0 ∈ ([1, 0] : List Nat)) :=
  ⟨rfl,
   ((reconstruct_check_iff [[0, 1], [2, 3]] [[[1, 0], [3, 2]]]).1.mp
      rfl).2 0 (by decide) [[0, 1], [2, 3]] (by simp)
      [[1, 0], [3, 2]] (by simp) 0⟩

/-! ## stress tests (main.py lines 84-95 and 664-693)

A return series is a list of (day, value) samples with natural-number
day stamps.  Each worker task's outcome is an `Except` value: `error`
models an exception raised inside the evaluation function, `ok` a
returned series. -/

abbrev Series := List (Nat × ℚ)

/-- The value a series contributes on day `d` (the sum of its samples
stamped `d`; for the resampled, unique-date series below this is the
day's single value). -/
def daySum (s : Series) (d : Nat) : ℚ :=
  ((s.filter (fun x => x.1 == d)).map Prod.snd).sum

def minDay (s : Series) : Nat :=
  match s.map Prod.fst with
  | [] => 0
  | d :: ds => ds.foldl min d

def maxDay (s : Series) : Nat :=
  match s.map Prod.fst with
  | [] => 0
  | d :: ds => ds.foldl max d

/-- `returns.resample("D").sum()` on a non-empty series: one sample per
day from the first to the last day, each holding that day's summed
value (days with no sample get sum 0). -/
def resampleD (s : Series) : Series :=
  match s with
  | [] => []
  | _ :: _ =>
      (List.range' (minDay s) (maxDay s + 1 - minDay s)).map
        (fun d => (d, daySum s d))

/-- `calc_returns` (main.py lines 84-95): the worker evaluates
`calc_pl_func(train_data, params)` inside `try`; an exception is caught,
logged, and replaced with an empty series; a non-empty result is
resampled to daily frequency. -/
def calc_returns (res : Except String Series) : Series :=
  match res with
  | .error _ => []
  | .ok r => if r.isEmpty then r else resampleD r

/-- `pd.concat(results, axis=1).dropna()` (main.py line 692): the panel
over the dates at which every retained column has a value, each row
listing every column's value at that date.  The retained resampled
series have unique dates, so the outer join followed by `dropna` keeps
exactly the dates common to all columns (enumerated here along the
first column's dates). -/
def mkPanel (results : List Series) : List (Nat × List ℚ) :=
  match results with
  | [] => []
  | r0 :: _ =>
      ((r0.map Prod.fst).filter (fun d =>
        results.all (fun r => (r.map Prod.fst).contains d))).map
        (fun d => (d, results.map (fun r => daySum r d)))

/-- `run_stress_tests` (main.py lines 664-693): evaluate every distinct
trial in independent worker tasks, filter out the empty results, and
when any remain build the joined panel and hand it to the external
stress battery (`some panel`); with no non-empty results, no panel is
built and the battery is not invoked (`none`). -/
def run_stress_tests_model (evals : List (Except String Series)) :
    Option (List (Nat × List ℚ)) :=
  let results := (evals.map calc_returns).filter (fun r => !r.isEmpty)
  if results.isEmpty then none else some (mkPanel results)

/-- C8.  A trial whose evaluation raises is caught by its worker and
contributes an empty series (so it is filtered out and the batch
continues); the external battery is skipped exactly when every task
yields an empty series; and when a panel is built its dates are exactly
the dates at which every retained column has a value. -/
theorem stress_test_isolation :
    (∀ e : String, calc_returns (.error e) = []) ∧
    (∀ evals : List (Except String Series),
      run_stress_tests_model evals = none ↔
        ∀ ev ∈ evals, calc_returns ev = []) ∧
    (∀ (evals : List (Except String Series)) (panel : List (Nat × List ℚ)),
      run_stress_tests_model evals = some panel →
      ∀ d : Nat, d ∈ panel.map Prod.fst ↔
        ∀ r ∈ (evals.map calc_returns).filter (fun r => !r.isEmpty),
          d ∈ r.map Prod.fst) := by
  refine ⟨fun _ => rfl, ?_, ?_⟩
  · intro evals
    unfold run_stress_tests_model
    by_cases hemp :
        ((evals.map calc_returns).filter (fun r => !r.isEmpty)).isEmpty = true
    · rw [if_pos hemp]
      simp only [true_iff]
      rw [List.isEmpty_iff, List.filter_eq_nil_iff] at hemp
      intro ev hev
      have h1 := hemp (calc_returns ev) (List.mem_map_of_mem _ hev)
      rw [Bool.not_eq_eq_eq_not, Bool.not_true, Bool.not_eq_false] at h1
      exact List.isEmpty_iff.mp h1
    · rw [if_neg hemp]
      constructor
      · intro hcon
        exact Option.noConfusion hcon
      · intro hall
        exfalso
        apply hemp
        rw [List.isEmpty_iff, List.filter_eq_nil_iff]
        intro r hr
        rcases List.mem_map.mp hr with ⟨ev, hev, rfl⟩
        rw [hall ev hev]
        simp
  · intro evals panel hpanel d
    unfold run_stress_tests_model at hpanel
    by_cases hemp :
        ((evals.map calc_returns).filter (fun r => !r.isEmpty)).isEmpty = true
    · rw [if_pos hemp] at hpanel
      exact Option.noConfusion hpanel
    · rw [if_neg hemp] at hpanel
      have hpanel2 := Option.some_inj.mp hpanel
      cases hres : (evals.map calc_returns).filter (fun r => !r.isEmpty) with
      | nil => rw [hres] at hemp; exact absurd rfl hemp
      | cons r0 rs =>
        rw [hres] at hpanel2
        rw [← hpanel2]
        unfold mkPanel
        rw [List.map_map]
        have hfst : (Prod.fst ∘ fun d => (d, (r0 :: rs).map (fun r => daySum r d))) =
            (id : Nat → Nat) := rfl
        rw [hfst, List.map_id]
        constructor
        · intro hd
          rw [List.mem_filter] at hd
          intro r hr
          have h2 := hd.2
          rw [List.all_eq_true] at h2
          exact contains_eq_true_iff.mp (h2 r hr)
        · intro hall
          rw [List.mem_filter]
          refine ⟨hall r0 (List.mem_cons_self _ _), ?_⟩
          rw [List.all_eq_true]
          intro r hr
          exact contains_eq_true_iff.mpr (hall r hr)

theorem stress_test_isolation_witness :
    calc_returns (Except.error "disk on fire") = [] ∧
      run_stress_tests_model [Except.error "disk on fire", Except.ok []] =
        none :=
  ⟨stress_test_isolation.1 "disk on fire",
   (stress_test_isolation.2.1 [Except.error "disk on fire", Except.ok []]).mpr
     (by intro ev hev
         rcases List.mem_cons.mp hev with rfl | hev2
         · rfl
         · rcases List.mem_cons.mp hev2 with rfl | hev3
           · rfl
           · simp at hev3)⟩

/-! ## split_data (main.py lines 203-256)

DataFrames are modelled as a date index (natural-number dates) plus
columns, each carrying a pandas dtype tag and one cell per index entry.
Cells are missing (`naC`), integers, or floats over exact rationals.
`astype(np.float32)` is modelled at the dtype level only — float32
rounding of cell values is machine arithmetic, out of this model's
scope — while `astype(np.int32)` is the exact two's-complement wrap. -/

inductive Dtype
  | f64
  | f32
  | i64
  | i32
  | obj
deriving DecidableEq

inductive Cell
  | intC (z : ℤ)
  | fC (q : ℚ)
  | naC
deriving DecidableEq

structure Col where
  dtype : Dtype
  cells : List Cell
deriving DecidableEq

structure DF where
  index : List Nat
  cols : List (String × Col)
deriving DecidableEq

/-- Insert a date into a sorted duplicate-free date list. -/
def insertDate (d : Nat) : List Nat → List Nat
  | [] => [d]
  | x :: xs =>
      if d < x then d :: x :: xs
      else if d = x then x :: xs
      else x :: insertDate d xs

/-- `align_dataframes_to_max_index`'s `all_dates` (main.py lines
205-210): the sorted union of every ticker's index. -/
def unionIndex (data : List (String × DF)) : List Nat :=
  ((data.map (fun td => td.2.index)).flatten).foldr insertDate []

/-- Position of the first occurrence of date `d` in index `idx`. -/
def idxPos (idx : List Nat) (d : Nat) : Option Nat :=
  match idx with
  | [] => none
  | x :: xs => if d = x then some 0 else (idxPos xs d).map (fun i => i + 1)

def cellToFloat : Cell → Cell
  | .intC z => .fC z
  | c => c

/-- The cells of `df.reindex(all_dates)` for one column: each new row
takes the existing cell at its date, or a missing cell. -/
def reindexCells (oldIdx newIdx : List Nat) (cells : List Cell) : List Cell :=
  newIdx.map (fun d =>
    match idxPos oldIdx d with
    | some i => cells.getD i Cell.naC
    | none => Cell.naC)

/-- `df.reindex(all_dates)` on one column (main.py line 217).  Pandas
cannot hold missing values in an integer column, so an integer column
that acquires a missing row is upcast to float64. -/
def reindexCol (oldIdx newIdx : List Nat) (c : Col) : Col :=
  if (c.dtype == Dtype.i64 || c.dtype == Dtype.i32) &&
      (reindexCells oldIdx newIdx c.cells).contains Cell.naC then
    { dtype := Dtype.f64,
      cells := (reindexCells oldIdx newIdx c.cells).map cellToFloat }
  else
    { dtype := c.dtype, cells := reindexCells oldIdx newIdx c.cells }

def reindexDF (newIdx : List Nat) (df : DF) : DF :=
  { index := newIdx,
    cols := df.cols.map (fun kc => (kc.1, reindexCol df.index newIdx kc.2)) }

/-- `align_dataframes_to_max_index` (main.py lines 203-224): reindex
every ticker's frame to the union of all indices. -/
def align_dataframes_to_max_index (data : List (String × DF)) :
    List (String × DF) :=
  data.map (fun td => (td.1, reindexDF (unionIndex data) td.2))

/-- `astype(np.int32)` on an int64 cell value: two's-complement wrap to
32 bits. -/
def toInt32 (z : ℤ) : ℤ := (z + 2 ^ 31) % 2 ^ 32 - 2 ^ 31

/-- The per-column downcast of main.py lines 240-243: float64 columns
become float32 (dtype-level; see the section comment), int64 columns
become int32 with wrapped values; other dtypes pass through. -/
def downcastCol (c : Col) : Col :=
  if c.dtype == Dtype.f64 then { dtype := Dtype.f32, cells := c.cells }
  else if c.dtype == Dtype.i64 then
    { dtype := Dtype.i32,
      cells := c.cells.map (fun cell =>
        match cell with
        | .intC z => Cell.intC (toInt32 z)
        | c2 => c2) }
  else c

def downcastDF (df : DF) : DF :=
  { index := df.index,
    cols := df.cols.map (fun kc => (kc.1, downcastCol kc.2)) }

/-- Label slicing `df.loc[...]` restricted by a predicate on the date:
keeps the rows (and their cells in every column) whose date satisfies
the predicate. -/
def selectRows (p : Nat → Bool) (df : DF) : DF :=
  let keep := (List.range df.index.length).filter
    (fun i => p (df.index.getD i 0))
  { index := keep.map (fun i => df.index.getD i 0),
    cols := df.cols.map (fun kc =>
      (kc.1, { dtype := kc.2.dtype,
               cells := keep.map (fun i => kc.2.cells.getD i Cell.naC) })) }

/-- `split_data` (main.py lines 226-256): align all frames to the union
index, downcast every column, then store the non-empty `df.loc[:train_end]`
slice as train data and — when `train_end` is in the index — the
non-empty `df.loc[train_end:]` slice as test data. -/
def split_data (data : List (String × DF)) (train_end : Nat) :
    List (String × DF) × List (String × DF) :=
  let aligned := align_dataframes_to_max_index data
  let downcasted := aligned.map (fun td => (td.1, downcastDF td.2))
  let train := downcasted.filterMap (fun td =>
    let tr := selectRows (fun d => decide (d ≤ train_end)) td.2
    if tr.index.isEmpty then none else some (td.1, tr))
  let test := downcasted.filterMap (fun td =>
    if td.2.index.contains train_end then
      let te := selectRows (fun d => decide (train_end ≤ d)) td.2
      if te.index.isEmpty then none else some (td.1, te)
    else none)
  (train, test)

/-- Two tickers whose calendars differ by one date, both carrying an
int64 column. -/
def split_cex_data : List (String × DF) :=
  [("A", ⟨[0, 1], [("x", ⟨Dtype.i64, [Cell.intC 1, Cell.intC 2]⟩)]⟩),
   ("B", ⟨[0, 1, 2], [("y", ⟨Dtype.i64, [Cell.intC 1, Cell.intC 2, Cell.intC 3]⟩)]⟩)]

/-- C9 counterexample: `split_data` aligns the frames to the union
index before casting dtypes, and the alignment turns ticker A's int64
column into float64 (a missing row appears), so the downcast stores it
as float32, not int32 — the claim's "every int64 column is downcast to
int32" fails for data dictionaries whose tickers' calendars differ. -/
theorem split_data_int_column_becomes_float :
    (split_cex_data.map (fun td => td.2.cols.map (fun kc => kc.2.dtype)) =
      [[Dtype.i64], [Dtype.i64]]) ∧
    ((split_data split_cex_data 10).1.map (fun td =>
        (td.1, td.2.cols.map (fun kc => (kc.1, kc.2.dtype)))) =
      [("A", [("x", Dtype.f32)]), ("B", [("y", Dtype.i32)])]) ∧
    Dtype.f32 ≠ Dtype.i32 := by decide

theorem reindex_cells_self (idx : List Nat) (cells : List Cell)
    (hnd : idx.Nodup) (hlen : cells.length = idx.length) :
    reindexCells idx idx cells = cells := by
  unfold reindexCells
  induction idx generalizing cells with
  | nil =>
    cases cells with
    | nil => rfl
    | cons c cs => simp at hlen
  | cons x rest ih =>
    cases cells with
    | nil => simp at hlen
    | cons c cs =>
      rw [List.map_cons]
      have hx : idxPos (x :: rest) x = some 0 := by
        unfold idxPos
        rw [if_pos rfl]
      rw [hx]
      have hnotx : x ∉ rest := (List.nodup_cons.mp hnd).1
      have htail : rest.map (fun d =>
          match idxPos (x :: rest) d with
          | some i => (c :: cs).getD i Cell.naC
          | none => Cell.naC) =
          rest.map (fun d =>
            match idxPos rest d with
            | some i => cs.getD i Cell.naC
            | none => Cell.naC) := by
        apply List.map_congr_left
        intro d hd
        have hdx : d ≠ x := fun h => hnotx (h ▸ hd)
        have hstep : idxPos (x :: rest) d = (idxPos rest d).map (fun i => i + 1) := by
          show (if d = x then some 0 else (idxPos rest d).map (fun i => i + 1)) = _
          rw [if_neg hdx]
        rw [hstep]
        cases idxPos rest d with
        | none => rfl
        | some i => rfl
      rw [htail, ih cs (List.nodup_cons.mp hnd).2 (by simpa using hlen)]
      rfl

theorem reindexCol_self (idx : List Nat) (c : Col) (hnd : idx.Nodup)
    (hlen : c.cells.length = idx.length)
    (hint : (c.dtype = Dtype.i64 ∨ c.dtype = Dtype.i32) →
      Cell.naC ∉ c.cells) :
    reindexCol idx idx c = c := by
  unfold reindexCol
  rw [reindex_cells_self idx c.cells hnd hlen]
  show (if ((c.dtype == Dtype.i64 || c.dtype == Dtype.i32) &&
      c.cells.contains Cell.naC) = true then
    (⟨Dtype.f64, c.cells.map cellToFloat⟩ : Col)
  else ⟨c.dtype, c.cells⟩) = c
  by_cases hdt : c.dtype = Dtype.i64 ∨ c.dtype = Dtype.i32
  · have hnc : c.cells.contains Cell.naC = false := by
      cases hcc : c.cells.contains Cell.naC with
      | false => rfl
      | true => exact absurd (contains_eq_true_iff.mp hcc) (hint hdt)
    rw [hnc]
    rw [if_neg (by simp)]
  · have hd1 : (c.dtype == Dtype.i64) = false := by
      cases hdd : c.dtype == Dtype.i64 with
      | false => rfl
      | true => exact absurd (Or.inl (beq_iff_eq.mp hdd)) hdt
    have hd2 : (c.dtype == Dtype.i32) = false := by
      cases hdd : c.dtype == Dtype.i32 with
      | false => rfl
      | true => exact absurd (Or.inr (beq_iff_eq.mp hdd)) hdt
    rw [hd1, hd2]
    rw [if_neg (by simp)]

theorem reindexDF_self (df : DF) (hnd : df.index.Nodup)
    (hlen : ∀ kc ∈ df.cols, kc.2.cells.length = df.index.length)
    (hint : ∀ kc ∈ df.cols,
      (kc.2.dtype = Dtype.i64 ∨ kc.2.dtype = Dtype.i32) →
        Cell.naC ∉ kc.2.cells) :
    reindexDF df.index df = df := by
  unfold reindexDF
  have hcols : df.cols.map (fun kc => (kc.1, reindexCol df.index df.index kc.2)) =
      df.cols := by
    calc df.cols.map (fun kc => (kc.1, reindexCol df.index df.index kc.2))
        = df.cols.map id := by
          apply List.map_congr_left
          intro kc hkc
          rw [reindexCol_self df.index kc.2 hnd (hlen kc hkc) (hint kc hkc)]
          rfl
      _ = df.cols := List.map_id _
  rw [hcols]

theorem align_self (data : List (String × DF))
    (hidx : ∀ td ∈ data, td.2.index = unionIndex data)
    (hnd : (unionIndex data).Nodup)
    (hlen : ∀ td ∈ data, ∀ kc ∈ td.2.cols,
      kc.2.cells.length = td.2.index.length)
    (hint : ∀ td ∈ data, ∀ kc ∈ td.2.cols,
      (kc.2.dtype = Dtype.i64 ∨ kc.2.dtype = Dtype.i32) →
        Cell.naC ∉ kc.2.cells) :
    align_dataframes_to_max_index data = data := by
  unfold align_dataframes_to_max_index
  calc data.map (fun td => (td.1, reindexDF (unionIndex data) td.2))
      = data.map id := by
        apply List.map_congr_left
        intro td htd
        rw [← hidx td htd,
          reindexDF_self td.2 (by rw [hidx td htd]; exact hnd)
            (hlen td htd) (hint td htd)]
        rfl
    _ = data := List.map_id _

/-- C9 (amended).  Every float64 column is stored as float32 and — when
the alignment that precedes the cast introduces no missing rows, in
particular when all tickers share one duplicate-free calendar — every
int64 column is stored as int32, with each value wrapped to 32 bits by
`astype(np.int32)` (so the stored train/test data may hold changed,
lower-precision values: e.g. the int64 value `2^31` is stored as
`-2^31`).  Every stored train (resp. test) frame is exactly the
`loc[:train_end]` (resp. `loc[train_end:]`) slice of the downcast of
the caller's frame.  When tickers' calendars differ, an int64 column
that acquires a missing row is upcast to float64 by the alignment and
then stored as float32, not int32. -/
theorem split_data_downcast (data : List (String × DF)) (train_end : Nat)
    (hidx : ∀ td ∈ data, td.2.index = unionIndex data)
    (hnd : (unionIndex data).Nodup)
    (hlen : ∀ td ∈ data, ∀ kc ∈ td.2.cols,
      kc.2.cells.length = td.2.index.length)
    (hint : ∀ td ∈ data, ∀ kc ∈ td.2.cols,
      (kc.2.dtype = Dtype.i64 ∨ kc.2.dtype = Dtype.i32) →
        Cell.naC ∉ kc.2.cells) :
    (∀ c : Col,
      (c.dtype = Dtype.f64 →
        (downcastCol c).dtype = Dtype.f32 ∧ (downcastCol c).cells = c.cells) ∧
      (c.dtype = Dtype.i64 →
        (downcastCol c).dtype = Dtype.i32 ∧
        (downcastCol c).cells = c.cells.map (fun cell =>
          match cell with
          | .intC z => Cell.intC (toInt32 z)
          | c2 => c2))) ∧
    toInt32 (2 ^ 31) = -(2 ^ 31) ∧
    (∀ tname df, (tname, df) ∈ (split_data data train_end).1 →
      ∃ df0, (tname, df0) ∈ data ∧
        df = selectRows (fun d => decide (d ≤ train_end)) (downcastDF df0)) ∧
    (∀ tname df, (tname, df) ∈ (split_data data train_end).2 →
      ∃ df0, (tname, df0) ∈ data ∧
        df = selectRows (fun d => decide (train_end ≤ d)) (downcastDF df0)) := by
  have halign := align_self data hidx hnd hlen hint
  refine ⟨?_, by decide, ?_, ?_⟩
  · intro c
    constructor
    · intro hdt
      unfold downcastCol
      rw [if_pos (beq_iff_eq.mpr hdt)]
      exact ⟨rfl, rfl⟩
    · intro hdt
      unfold downcastCol
      have h1 : (c.dtype == Dtype.f64) = false := by
        rw [hdt]; rfl
      rw [h1, if_neg (by simp), if_pos (beq_iff_eq.mpr hdt)]
      exact ⟨rfl, rfl⟩
  · intro tname df hmem
    unfold split_data at hmem
    rw [halign] at hmem
    simp only [List.mem_filterMap, List.mem_map] at hmem
    obtain ⟨td2, ⟨td0, htd0, rfl⟩, hsome⟩ := hmem
    by_cases hemp : (selectRows (fun d => decide (d ≤ train_end))
        (downcastDF td0.2)).index.isEmpty = true
    · rw [if_pos hemp] at hsome
      exact Option.noConfusion hsome
    · rw [if_neg hemp] at hsome
      have := Option.some_inj.mp hsome
      refine ⟨td0.2, ?_, ?_⟩
      · rw [show (tname, td0.2) = td0 by rw [← (Prod.mk.injEq _ _ _ _).mp this |>.1]]
        exact htd0
      · exact ((Prod.mk.injEq _ _ _ _).mp this).2.symm
  · intro tname df hmem
    unfold split_data at hmem
    rw [halign] at hmem
    simp only [List.mem_filterMap, List.mem_map] at hmem
    obtain ⟨td2, ⟨td0, htd0, rfl⟩, hsome⟩ := hmem
    by_cases hcont : (downcastDF td0.2).index.contains train_end = true
    · rw [if_pos hcont] at hsome
      by_cases hemp : (selectRows (fun d => decide (train_end ≤ d))
          (downcastDF td0.2)).index.isEmpty = true
      · rw [if_pos hemp] at hsome
        exact Option.noConfusion hsome
      · rw [if_neg hemp] at hsome
        have := Option.some_inj.mp hsome
        refine ⟨td0.2, ?_, ?_⟩
        · rw [show (tname, td0.2) = td0 by rw [← (Prod.mk.injEq _ _ _ _).mp this |>.1]]
          exact htd0
        · exact ((Prod.mk.injEq _ _ _ _).mp this).2.symm
    · rw [if_neg hcont] at hsome
      exact Option.noConfusion hsome

/-- One ticker, one int64 column holding `2^31`, one float64 column. -/
def split_wit_data : List (String × DF) :=
  [("A", ⟨[0, 1],
    [("x", ⟨Dtype.i64, [Cell.intC (2 ^ 31), Cell.intC 5]⟩),
     ("y", ⟨Dtype.f64, [Cell.fC 1, Cell.fC 2]⟩)]⟩)]

theorem split_data_downcast_witness :
    ((downcastCol ⟨Dtype.i64, [Cell.intC (2 ^ 31), Cell.intC 5]⟩).dtype =
        Dtype.i32 ∧
      (downcastCol ⟨Dtype.i64, [Cell.intC (2 ^ 31), Cell.intC 5]⟩).cells =
        [Cell.intC (2 ^ 31), Cell.intC 5].map (fun cell =>
          match cell with
          | .intC z => Cell.intC (toInt32 z)
          | c2 => c2)) ∧
    toInt32 (2 ^ 31) = -(2 ^ 31) :=
  ⟨(split_data_downcast split_wit_data 10 (by decide) (by decide)
      (by decide) (by decide)).1
        ⟨Dtype.i64, [Cell.intC (2 ^ 31), Cell.intC 5]⟩ |>.2 rfl,
   (split_data_downcast split_wit_data 10 (by decide) (by decide)
      (by decide) (by decide)).2.1⟩

/-! ## create_combcv_dict (main.py lines 400-460)

Only a ticker's training-series length decides its eligibility, so
`train_data` is modelled as ticker → length; the per-ticker fold entry
carries the consecutive-run splits of the train and test index
positions, and `backtest_paths` carries the `cpcv_paths` matrix. -/

/-- `split_consecutive` (main.py lines 409-422): split an index list
into maximal runs of consecutive values (`np.split` at the positions
where the difference to the previous element is not 1; an empty input
yields one empty chunk, since `np.split(arr, [])` is `[arr]`). -/
def split_consecutive : List Nat → List (List Nat)
  | [] => [[]]
  | [x] => [[x]]
  | x :: y :: rest =>
      let r := split_consecutive (y :: rest)
      if y = x + 1 then (x :: r.headD []) :: r.tail
      else [x] :: r

structure TrainTest where
  train : List (List Nat)
  test : Option (List (List Nat))
deriving DecidableEq

/-- `create_combcv_dict` (main.py lines 400-460): with no splits
requested, fold 0 holds every ticker's full range as train data; with
`n_splits > 0` and `n_test_splits > 0`, only tickers whose length
strictly exceeds `math.comb(n_splits, n_test_splits) * 50` receive
entries — for each combination column, the consecutive-run splits of
`np.where(~is_test[:, c])` and `np.where(is_test[:, c])` — plus a
`backtest_paths` matrix; the remaining tickers are silently skipped
(the function is total: no error and no log line on the skip path). -/
def create_combcv_dict (train_data : List (String × Nat))
    (n_splits n_test_splits : Nat) :
    List (Nat × List (String × TrainTest)) ×
      List (String × List (List (Option Nat))) :=
  if n_test_splits = 0 ∨ n_splits = 0 then
    ([(0, train_data.map (fun td => (td.1, ⟨[List.range td.2], none⟩)))], [])
  else
    let total_comb := n_splits.choose n_test_splits
    let eligible := train_data.filter (fun td => decide (total_comb * 50 < td.2))
    ((List.range (C_nk n_splits n_test_splits)).map (fun c =>
        (c, eligible.map (fun td =>
          (td.1,
           ⟨split_consecutive (trueIdxs
              ((is_test_matrix td.2 n_splits n_test_splits).map
                (fun row => !(row.getD c false)))),
            some (split_consecutive (trueIdxs
              ((is_test_matrix td.2 n_splits n_test_splits).map
                (fun row => row.getD c false))))⟩)))),
     eligible.map (fun td =>
       (td.1, cpcv_paths td.2 n_splits n_test_splits)))

theorem nodup_keys_eq {β : Type} {l : List (String × β)}
    (hnd : (l.map Prod.fst).Nodup) {a b : String × β}
    (ha : a ∈ l) (hb : b ∈ l) (hfst : a.1 = b.1) : a = b := by
  induction l with
  | nil => simp at ha
  | cons x xs ih =>
    rw [List.map_cons, List.nodup_cons] at hnd
    rcases List.mem_cons.mp ha with rfl | ha2
    · rcases List.mem_cons.mp hb with rfl | hb2
      · rfl
      · exfalso
        apply hnd.1
        rw [hfst]
        exact List.mem_map_of_mem _ hb2
    · rcases List.mem_cons.mp hb with rfl | hb2
      · exfalso
        apply hnd.1
        rw [← hfst]
        exact List.mem_map_of_mem _ ha2
      · exact ih hnd.2 ha2 hb2

/-- C10.  With `n_splits > 0` and `n_test_splits > 0`, a ticker whose
training length is not strictly greater than
`C(n_splits, n_test_splits)·50` receives no train/test entry in any
fold of `combcv_dict` and no `backtest_paths` matrix — it is silently
dropped (the function is total, so no exception is raised, and the skip
branch has no logging).  Ticker names are distinct, as dict keys are. -/
theorem create_combcv_skips_short_tickers
    (train_data : List (String × Nat)) (n_splits n_test_splits : Nat)
    (hn : 0 < n_splits) (hk : 0 < n_test_splits)
    (hnd : (train_data.map Prod.fst).Nodup)
    (tname : String) (tlen : Nat)
    (hmem : (tname, tlen) ∈ train_data)
    (hshort : tlen ≤ n_splits.choose n_test_splits * 50) :
    (∀ fold ∈ (create_combcv_dict train_data n_splits n_test_splits).1,
       ∀ tt ∈ fold.2, tt.1 ≠ tname) ∧
    (∀ pp ∈ (create_combcv_dict train_data n_splits n_test_splits).2,
       pp.1 ≠ tname) := by
  have hcond : ¬ (n_test_splits = 0 ∨ n_splits = 0) := by omega
  have helig : ∀ td ∈ train_data.filter
      (fun td => decide (n_splits.choose n_test_splits * 50 < td.2)),
      td.1 ≠ tname := by
    intro td htd heq
    have htd1 := List.mem_of_mem_filter htd
    have htd2 := List.of_mem_filter htd
    have : td = (tname, tlen) := nodup_keys_eq hnd htd1 hmem heq
    rw [this] at htd2
    simp only [decide_eq_true_eq] at htd2
    omega
  unfold create_combcv_dict
  rw [if_neg hcond]
  constructor
  · intro fold hfold tt htt
    simp only [List.mem_map] at hfold
    obtain ⟨c, _, rfl⟩ := hfold
    simp only [List.mem_map] at htt
    obtain ⟨td, htd, rfl⟩ := htt
    exact helig td htd
  · intro pp hpp
    simp only [List.mem_map] at hpp
    obtain ⟨td, htd, rfl⟩ := hpp
    exact helig td htd

theorem create_combcv_skips_short_tickers_witness :
    ¬ (("A", cpcv_paths 100 5 2) ∈
        (create_combcv_dict [("A", 100), ("B", 501)] 5 2).2) :=
  fun h =>
    (create_combcv_skips_short_tickers [("A", 100), ("B", 501)] 5 2
        (by decide) (by decide) (by decide) "A" 100 (by simp)
        (by decide)).2
      ("A", cpcv_paths 100 5 2) h rfl

end BacktestOpt
